import Mathlib

/-!
Verification development for the chatyy browser-extension content script.

The definitions below are a shallow embedding of the TypeScript sources:
  src/services/pageExtractor.ts  (page/product/metadata extraction, text de-duplication)
  src/services/youtubeHandler.ts (video id handling, transcript fetching)
  src/utils/logger.ts            (bounded persistent log buffer)
  the model catalog and adapter registry (valid_modals / modals)

Strings are modelled as Lean String / List Char.  JavaScript platform
primitives (String.prototype.trim, the \s regex class, String.split,
URLSearchParams, DOMParser, JSON.parse) are modelled by executable Lean
functions over the ASCII whitespace class; Unicode-only whitespace is not
modelled.  JavaScript truthiness of a string-or-null value (null and the
empty string are falsy) is modelled by jsT on Option String.
-/

/-- ASCII whitespace, the model of the JavaScript regex class \s and of the
characters removed by String.prototype.trim. -/
def isWS (c : Char) : Bool :=
  c == ' ' || c == '\t' || c == '\n' || c == '\r' || c == '\x0b' || c == '\x0c'

/-- JavaScript truthiness filter for a string-or-null value: null stays null
and the empty string becomes null; anything else is kept. -/
def jsT : Option String → Option String
  | none => none
  | some s => if s = "" then none else some s

/-- Model of the left half of String.prototype.trim. -/
def trimL (cs : List Char) : List Char := cs.dropWhile isWS

/-- Model of the right half of String.prototype.trim. -/
def trimR : List Char → List Char
  | [] => []
  | c :: rest =>
    match trimR rest with
    | [] => if isWS c then [] else [c]
    | r => c :: r

/-- Model of String.prototype.trim on character lists. -/
def jsTrim (cs : List Char) : List Char := trimL (trimR cs)

/-- Model of String.prototype.trim on strings. -/
def trimStr (s : String) : String := String.mk (jsTrim s.data)

/-- Prepend a character to the first line of a line list. -/
def consHead (c : Char) : List (List Char) → List (List Char)
  | [] => [[c]]
  | l :: ls => (c :: l) :: ls

/-- Model of JavaScript text.split(new RegExp with pattern CR?LF): split at
every line feed, consuming a single carriage return that immediately
precedes it. -/
def splitCRLF : List Char → List (List Char)
  | [] => [[]]
  | '\r' :: '\n' :: rest => [] :: splitCRLF rest
  | '\n' :: rest => [] :: splitCRLF rest
  | c :: rest => consHead c (splitCRLF rest)

/-- Split at every line feed only (the literal reading of the
specification, which says to split the text on newlines). -/
def splitLF : List Char → List (List Char)
  | [] => [[]]
  | '\n' :: rest => [] :: splitLF rest
  | c :: rest => consHead c (splitLF rest)

/-- Keep only the first occurrence of each line, in order: the model of
Array.from(new Set(chunks)), since a JavaScript Set preserves insertion
order. -/
def dedupFirstAux (seen : List (List Char)) : List (List Char) → List (List Char)
  | [] => []
  | x :: xs =>
    if x ∈ seen then dedupFirstAux seen xs
    else x :: dedupFirstAux (x :: seen) xs

/-- De-duplication preserving the first occurrence of each line. -/
def dedupFirst (ls : List (List Char)) : List (List Char) := dedupFirstAux [] ls

/-- Model of Array.prototype.join with a one-character separator. -/
def joinSep (sep : Char) : List (List Char) → List Char
  | [] => []
  | [l] => l
  | l :: ls => l ++ sep :: joinSep sep ls

/-- Model of text.replace(all runs of \s, a single space): every maximal run
of whitespace characters collapses to one space. -/
def squashWS : List Char → List Char
  | [] => []
  | [c] => [if isWS c then ' ' else c]
  | a :: b :: rest =>
    if isWS a && isWS b then squashWS (b :: rest)
    else (if isWS a then ' ' else a) :: squashWS (b :: rest)

/-- The de-duplication pipeline of getDeDupedFullText, translated from the
source: split at CR?LF, trim each line, keep lines of length over one,
de-duplicate keeping first occurrences, join with a line feed, collapse
whitespace runs to single spaces, and trim. -/
def codeDedupChars (cs : List Char) : List Char :=
  let chunks := ((splitCRLF cs).map jsTrim).filter (fun l => 1 < l.length)
  let uniq := dedupFirst chunks
  jsTrim (squashWS (joinSep '\n' uniq))

/-- String-level wrapper of the source de-duplication pipeline. -/
def dedupeText (s : String) : String := String.mk (codeDedupChars s.data)

/-- Reference function written from the specification text: split the text
on newlines, trim each line, discard every line of length at most one,
remove duplicate lines keeping the first occurrence in order, rejoin the
remaining lines with a single space, and normalize all whitespace runs to a
single space, trimmed. -/
def specDedupChars (cs : List Char) : List Char :=
  let lines := ((splitLF cs).map jsTrim).filter (fun l => 1 < l.length)
  let uniq := dedupFirst lines
  jsTrim (squashWS (joinSep ' ' uniq))

/-- String-level wrapper of the specification reference pipeline. -/
def specDedupText (s : String) : String := String.mk (specDedupChars s.data)

example : dedupeText "foo bar\nfoo bar\nbaz  qux\na\n" = "foo bar baz qux" := by decide

example : specDedupText "foo bar\nfoo bar\nbaz  qux\na\n" = "foo bar baz qux" := by decide

example : dedupeText "line one\r\nline one\r\nline two" = "line one line two" := by decide

/-! DOM model.  A document is a title, a URL, and a forest of nodes (head
elements followed by an optional body element; a browser document always
has a body unless the page is in a degenerate state, which is the error
path of getMainContent). -/

/-- A DOM node: an element with a tag name, attributes and children, or a
text node. -/
inductive Node where
  | elem (tag : String) (attrs : List (String × String)) (children : List Node)
  | text (s : String)

/-- A document snapshot. -/
structure Doc where
  title : String
  url : String
  head : List Node
  body? : Option Node

/-- All root nodes of a document, in document order. -/
def Doc.roots (d : Doc) : List Node :=
  d.head ++ (match d.body? with | some b => [b] | none => [])

/-- Attributes of a node (a text node has none). -/
def attrsOf : Node → List (String × String)
  | .elem _ a _ => a
  | .text _ => []

/-- Children of a node (a text node has none). -/
def childrenOf : Node → List Node
  | .elem _ _ cs => cs
  | .text _ => []

/-- Model of Element.getAttribute: the value of the first attribute with the
given name, or null. -/
def getAttr (a : List (String × String)) (n : String) : Option String :=
  (a.find? (fun p => p.1 == n)).map (fun p => p.2)

mutual
/-- Model of Node.textContent: the concatenation of all descendant text
nodes in document order. -/
def textContentN : Node → String
  | .elem _ _ cs => textContentL cs
  | .text s => s
/-- textContent of a node list. -/
def textContentL : List Node → String
  | [] => ""
  | n :: ns => textContentN n ++ textContentL ns
end

mutual
/-- Collect the elements of a subtree (the node itself included) whose tag
and attributes satisfy the predicate, in document (pre-)order: the model of
querySelectorAll restricted to the selector kinds the source uses. -/
def collectN (p : String → List (String × String) → Bool) : Node → List Node
  | .text _ => []
  | .elem t a cs => (if p t a then [Node.elem t a cs] else []) ++ collectL p cs
/-- Collect matching elements of a forest in document order. -/
def collectL (p : String → List (String × String) → Bool) : List Node → List Node
  | [] => []
  | n :: ns => collectN p n ++ collectL p ns
end

/-- document.querySelectorAll over the whole document. -/
def qsaDoc (d : Doc) (p : String → List (String × String) → Bool) : List Node :=
  collectL p d.roots

/-- document.querySelector: the first match in document order. -/
def qsDoc (d : Doc) (p : String → List (String × String) → Bool) : Option Node :=
  (qsaDoc d p).head?

/-- element.querySelector: the first matching proper descendant. -/
def qsIn (n : Node) (p : String → List (String × String) → Bool) : Option Node :=
  (collectL p (childrenOf n)).head?

/-- Split a character list into maximal whitespace-free words. -/
def wordsAux : List Char → List Char → List (List Char)
  | [], acc => if acc.isEmpty then [] else [acc.reverse]
  | c :: rest, acc =>
    if isWS c then
      if acc.isEmpty then wordsAux rest [] else acc.reverse :: wordsAux rest []
    else wordsAux rest (c :: acc)

/-- The class list of an attribute list: the class attribute split on
whitespace, as the browser does for class selector matching. -/
def classListOf (a : List (String × String)) : List String :=
  (wordsAux ((getAttr a "class").getD "").data []).map String.mk

/-- Whether an element carries the given class token. -/
def hasClass (a : List (String × String)) (c : String) : Bool :=
  (classListOf a).contains c

/-- Whether a node survives script/style removal: every node except script
and style elements. -/
def keepNode : Node → Bool
  | .elem t _ _ => !(t == "script" || t == "style")
  | .text _ => true

mutual
/-- Model of removing every script and style element from a cloned
subtree, as the source does by querying for script and style elements and
removing each match
does: script and style subtrees are dropped wholesale. -/
def stripSSN : Node → Node
  | .elem t a cs => .elem t a (stripSSL cs)
  | .text s => .text s
/-- Script/style removal over a node list: a dropped node disappears with
its whole subtree, a kept node is stripped recursively. -/
def stripSSL : List Node → List Node
  | [] => []
  | n :: ns => (if keepNode n then [stripSSN n] else []) ++ stripSSL ns
end

/-- Error cases of the DOM primitives the extraction code touches. -/
inductive DomErr where
  | noBody
deriving DecidableEq

/-- The try-block of getMainContent: clone the body (the model is
persistent, so cloning is the identity), strip script and style elements,
and return the trimmed text content.  Accessing a missing body throws. -/
def getMainContentE (d : Doc) : Except DomErr String :=
  match d.body? with
  | none => .error .noBody
  | some b => .ok (trimStr (textContentN (stripSSN b)))

/-- getMainContent: the try-block result, degraded to the empty string by
the catch-all handler. -/
def getMainContent (d : Doc) : String :=
  match getMainContentE d with
  | .ok s => s
  | .error _ => ""

/-- getPageTitle: document.title, with the empty string as the falsy
default. -/
def getPageTitle (d : Doc) : String := d.title

/-- getDeDupedFullText: the de-duplication pipeline applied to the full
cleaned body text; getMainContent already catches its own errors, and the
rest of the pipeline is pure. -/
def getDeDupedFullText (d : Doc) : String := dedupeText (getMainContent d)

/-- getPageDescription: meta description, else OpenGraph description, else
the first paragraph text, else empty; a missing or empty candidate is falsy
and falls through. -/
def getPageDescription (d : Doc) : String :=
  let md := (qsDoc d (fun t a => t == "meta" && getAttr a "name" == some "description")).bind
    (fun e => getAttr (attrsOf e) "content")
  match jsT md with
  | some s => s
  | none =>
    let og := (qsDoc d (fun t a => t == "meta" && getAttr a "property" == some "og:description")).bind
      (fun e => getAttr (attrsOf e) "content")
    match jsT og with
    | some s => s
    | none =>
      let fp := (qsDoc d (fun t _ => t == "p")).map (fun e => trimStr (textContentN e))
      match jsT fp with
      | some s => s
      | none => ""

/-! Product extraction. -/

/-- A heuristically extracted product. -/
structure Product where
  name : Option String
  price : Option String
  imageUrl : Option String
deriving DecidableEq

/-- The fixed ordered selector list of extractProducts; every entry is a
class selector. -/
def productSelectors : List String :=
  [".product-item", ".product-card", ".js-product-list-item",
   ".grid-product", ".product-container", ".item-card"]

/-- Matching for one product-container class selector: strip the leading
dot and test class membership. -/
def matchesSel (sel : String) : String → List (String × String) → Bool :=
  fun _ a => hasClass a (sel.drop 1)

/-- Sub-selector for the product name: h2, h3, .product-title, .item-name. -/
def namePred (t : String) (a : List (String × String)) : Bool :=
  t == "h2" || t == "h3" || hasClass a "product-title" || hasClass a "item-name"

/-- Sub-selector for the product price: .price, .product-price, .item-price,
any element carrying a data-price attribute. -/
def pricePred (_t : String) (a : List (String × String)) : Bool :=
  hasClass a "price" || hasClass a "product-price" || hasClass a "item-price"
    || (getAttr a "data-price").isSome

/-- Sub-selector for the product image: img.product-image, img.item-image. -/
def imgPred (t : String) (a : List (String × String)) : Bool :=
  t == "img" && (hasClass a "product-image" || hasClass a "item-image")

/-- The name found inside a product element: trimmed text of the first
name sub-match, with the empty string falsy. -/
def nameOf (n : Node) : Option String :=
  jsT ((qsIn n namePred).map (fun e => trimStr (textContentN e)))

/-- The price found inside a product element: trimmed text of the first
price sub-match, else its data-price attribute, empty values falsy. -/
def priceOf (n : Node) : Option String :=
  match jsT ((qsIn n pricePred).map (fun e => trimStr (textContentN e))) with
  | some s => some s
  | none => jsT ((qsIn n pricePred).bind (fun e => getAttr (attrsOf e) "data-price"))

/-- The image URL found inside a product element: the src attribute of the
first image sub-match, with the empty string falsy. -/
def imgOf (n : Node) : Option String :=
  jsT ((qsIn n imgPred).bind (fun e => getAttr (attrsOf e) "src"))

/-- The product contributed by one matched container element, if at least
one of name, price, image URL was found. -/
def productOf (n : Node) : Option Product :=
  if (nameOf n).isSome || (priceOf n).isSome || (imgOf n).isSome then
    some { name := nameOf n, price := priceOf n, imageUrl := imgOf n }
  else none

/-- The selector loop of extractProducts: query each selector in order and
stop at the first one that yields at least one element; if none does, the
final (empty) query result is used. -/
def findProductElements (d : Doc) : List String → List Node
  | [] => []
  | sel :: rest =>
    let q := qsaDoc d (matchesSel sel)
    if 0 < q.length then q else findProductElements d rest

/-- extractProducts: walk the matched container elements and push each
extracted product onto the accumulator. -/
def extractProducts (d : Doc) : List Product :=
  (findProductElements d productSelectors).foldl
    (fun acc el => match productOf el with
      | some p => acc ++ [p]
      | none => acc) []

/-! Metadata extraction. -/

/-- Left brace character, written by code point to keep brace characters
out of string literals. -/
def lbrace : Char := Char.ofNat 123

/-- Right brace character. -/
def rbrace : Char := Char.ofNat 125

/-- Scan a JSON string body up to the closing quote (escape sequences are
not modelled). -/
def takeStr : List Char → Option (List Char × List Char)
  | [] => none
  | '"' :: rest => some ([], rest)
  | c :: rest => (takeStr rest).map (fun pr => (c :: pr.1, pr.2))

/-- Parse the members of a flat JSON object of string values, after the
opening brace; fuel-bounded.  This is the model of JSON.parse restricted to
the shape getMetadata merges; any other payload is a parse error, which the
source catches. -/
def parseMembers : Nat → List Char → Option (List (String × String) × List Char)
  | 0, _ => none
  | _ + 1, [] => none
  | fuel + 1, c :: rest =>
    if c = rbrace then some ([], rest)
    else if c = '"' then
      match takeStr rest with
      | none => none
      | some (k, r1) =>
        match trimL r1 with
        | ':' :: r2 =>
          match trimL r2 with
          | '"' :: r3 =>
            match takeStr r3 with
            | none => none
            | some (v, r4) =>
              match trimL r4 with
              | ',' :: r5 =>
                (parseMembers fuel (trimL r5)).map
                  (fun pr => ((String.mk k, String.mk v) :: pr.1, pr.2))
              | c2 :: r5 =>
                if c2 = rbrace then some ([(String.mk k, String.mk v)], r5) else none
              | [] => none
          | _ => none
        | _ => none
    else none

/-- Model of JSON.parse for the ld+json merge: succeeds on a flat object of
string keys and string values, errors otherwise. -/
def jsonParseObj (s : String) : Except Unit (List (String × String)) :=
  match trimL s.data with
  | c :: rest =>
    if c = lbrace then
      match parseMembers (s.data.length + 1) (trimL rest) with
      | some (ps, r) => if trimL r = [] then .ok ps else .error ()
      | none => .error ()
    else .error ()
  | [] => .error ()

/-- Insert-or-overwrite into an ordered key-value mapping: the model of
JavaScript object assignment, where the first insertion fixes the position
and a later write overwrites the value. -/
def upsert (m : List (String × String)) (k v : String) : List (String × String) :=
  if m.any (fun p => p.1 == k) then
    m.map (fun p => if p.1 == k then (k, v) else p)
  else m ++ [(k, v)]

/-- The default text handed to JSON.parse when a script has no text:
script.textContent with the empty-object literal as the falsy default. -/
def ldJsonInput (s : String) : String :=
  if s = "" then String.mk [lbrace, rbrace] else s

/-- getMetadata: every meta tag with a truthy name-or-property and a truthy
content contributes a pair, in document order with last-write-wins; parsed
ld+json script payloads are merged on top, parse errors skipped. -/
def getMetadata (d : Doc) : List (String × String) :=
  let base := (qsaDoc d (fun t _ => t == "meta")).foldl
    (fun m el =>
      let a := attrsOf el
      let nm := match jsT (getAttr a "name") with
        | some s => some s
        | none => getAttr a "property"
      match jsT nm, jsT (getAttr a "content") with
      | some n, some c => upsert m n c
      | _, _ => m) []
  (qsaDoc d (fun t a => t == "script" && getAttr a "type" == some "application/ld+json")).foldl
    (fun m el =>
      match jsonParseObj (ldJsonInput (textContentN el)) with
      | .ok ps => ps.foldl (fun m' p => upsert m' p.1 p.2) m
      | .error _ => m) base

/-! The aggregated snapshot. -/

/-- The PageContent snapshot, products modelled as a plain list. -/
structure PageContent where
  title : String
  description : String
  mainContent : String
  visibleText : String
  deDupedFullText : String
  url : String
  metadata : List (String × String)
  products : List Product
deriving DecidableEq

/-- getAllPageContent: pure aggregation of the extraction functions, with
visibleText reset to the empty string as in the source. -/
def getAllPageContent (d : Doc) : PageContent :=
  { title := getPageTitle d
    description := getPageDescription d
    mainContent := getMainContent d
    visibleText := ""
    deDupedFullText := getDeDupedFullText d
    url := d.url
    metadata := getMetadata d
    products := extractProducts d }

/-- The empty document: empty title, empty URL, no head nodes, an empty
body element. -/
def emptyDoc : Doc :=
  { title := "", url := "", head := [], body? := some (.elem "body" [] []) }

/-- A degenerate document whose body is missing, the error path of
getMainContent. -/
def noBodyDoc : Doc :=
  { title := "t", url := "u", head := [], body? := none }

/-! Logger.  The in-memory buffer is a list of formatted entry strings; the
persisted store is an optional list under the single storage key.  Chrome
storage availability is an environment flag. -/

/-- The capacity of the log buffer (maxLogs in the source). -/
def maxLogs : Nat := 1000

/-- Log levels of the logger. -/
inductive LogLevel where
  | log
  | warn
  | error
deriving DecidableEq

/-- The level marker interpolated into an entry. -/
def levelMark : LogLevel → String
  | .error => "❌"
  | .warn => "⚠️"
  | .log => ""

/-- The formatted entry string of addLog: timestamp, level marker, message,
serialized arguments. -/
def formatEntry (ts : String) (lvl : LogLevel) (msg : String) (argsStr : String) : String :=
  "[" ++ ts ++ "] " ++ levelMark lvl ++ " " ++ msg ++ " " ++ argsStr

/-- Append an entry to the buffer and truncate to the most recent maxLogs
entries, as addLog does with push and slice. -/
def addEntry (buf : List String) (e : String) : List String :=
  if maxLogs < (buf ++ [e]).length then
    (buf ++ [e]).drop ((buf ++ [e]).length - maxLogs)
  else buf ++ [e]

/-- The logger state: the in-memory buffer and the persisted store value
(none when the key was never written). -/
structure LoggerState where
  logs : List String
  stored : Option (List String)
deriving DecidableEq

/-- The initial logger state. -/
def initLogger : LoggerState := { logs := [], stored := none }

/-- addLog: append to the in-memory buffer, truncate, and mirror the whole
buffer to the persisted store when chrome storage is available. -/
def addLogFull (chromeAvail : Bool) (st : LoggerState) (e : String) : LoggerState :=
  let newLogs := addEntry st.logs e
  { logs := newLogs, stored := if chromeAvail then some newLogs else st.stored }

/-- A log() call: format the entry at the given timestamp and add it. -/
def logCall (chromeAvail : Bool) (st : LoggerState) (ts msg : String) : LoggerState :=
  addLogFull chromeAvail st (formatEntry ts LogLevel.log msg "")

/-- getLogs: the persisted buffer when chrome storage is available (the
missing key reads as the empty list), else the in-memory buffer. -/
def getLogs (chromeAvail : Bool) (st : LoggerState) : List String :=
  if chromeAvail then st.stored.getD [] else st.logs

/-! YouTube handler.  The handler state is the single mutable field
lastVideoId; the environment carries the page URL query string, the player
response the page exposes (through the global or the script-tag fallback),
and the network.  Calls are modelled as state transformers that also emit
an effect trace of log writes, player-response reads and network fetches. -/

/-- Observable effects of the YouTube handler. -/
inductive Eff where
  | logL (msg : String)
  | logW (msg : String)
  | logE (msg : String)
  | readPlayer
  | httpGET (url : String)
deriving DecidableEq

/-- Extraction work: reading the player response or fetching over the
network (log writes are not work). -/
def isWork : Eff → Bool
  | .readPlayer => true
  | .httpGET _ => true
  | _ => false

/-- One caption track of the player response. -/
structure CaptionTrack where
  baseUrl : Option String
deriving DecidableEq

/-- The playerCaptionsTracklistRenderer object. -/
structure Tracklist where
  captionTracks : Option (List CaptionTrack)
deriving DecidableEq

/-- The captions object of a player response. -/
structure Captions where
  playerCaptionsTracklistRenderer : Option Tracklist
deriving DecidableEq

/-- A player response, reduced to the fields the handler reads. -/
structure PlayerResponse where
  captions : Option Captions
deriving DecidableEq

/-- The optional chain playerResponse?.captions?.playerCaptionsTracklistRenderer?.captionTracks. -/
def captionTracksOf (p : PlayerResponse) : Option (List CaptionTrack) :=
  (p.captions.bind (fun c => c.playerCaptionsTracklistRenderer)).bind
    (fun t => t.captionTracks)

/-- Outcome of a network fetch: a successful response with a body, a
response with res.ok false, or a thrown network error. -/
inductive FetchOutcome where
  | ok (body : String)
  | notOk
  | throws
deriving DecidableEq

/-- The page environment of the handler. -/
structure YtEnv where
  search : String
  player : Option PlayerResponse
  fetchFn : String → FetchOutcome

/-- Split a query segment at its first equals sign. -/
def splitEq (seg : List Char) : String × String :=
  match seg.findIdx? (fun c => c == '=') with
  | none => (String.mk seg, "")
  | some i => (String.mk (seg.take i), String.mk (seg.drop (i + 1)))

/-- Split a character list on ampersands. -/
def splitAmp : List Char → List (List Char)
  | [] => [[]]
  | '&' :: rest => [] :: splitAmp rest
  | c :: rest => consHead c (splitAmp rest)

/-- Model of URLSearchParams over a search string: drop a leading question
mark, split on ampersands, ignore empty segments, split each segment at its
first equals sign (percent decoding is not modelled). -/
def parseQuery (s : String) : List (String × String) :=
  let cs := match s.data with
    | '?' :: rest => rest
    | cs => cs
  ((splitAmp cs).filter (fun seg => !seg.isEmpty)).map splitEq

/-- URLSearchParams.get: the value of the first parameter with the given
key, or null. -/
def searchGet (s : String) (key : String) : Option String :=
  ((parseQuery s).find? (fun p => p.1 == key)).map (fun p => p.2)

/-- getCurrentVideoId: the v query parameter of the page URL. -/
def getCurrentVideoId (env : YtEnv) : Option String :=
  searchGet env.search "v"

/-- Replace every line feed by a space, as the transcript assembly does on
each text node. -/
def replNL (s : String) : String :=
  String.mk (s.data.map (fun c => if c = '\n' then ' ' else c))

/-- Model of Array.prototype.join with a single-space separator on
strings. -/
def joinSpace : List String → String
  | [] => ""
  | [s] => s
  | s :: rest => s ++ " " ++ joinSpace rest

/-- Find the first occurrence of a pattern in a character list, returning
the characters before it and the characters after it. -/
def findSub (pat : List Char) : List Char → Option (List Char × List Char)
  | [] => if pat.isEmpty then some ([], []) else none
  | c :: rest =>
    if List.isPrefixOf pat (c :: rest) then some ([], (c :: rest).drop pat.length)
    else (findSub pat rest).map (fun pr => (c :: pr.1, pr.2))

/-- Scan an XML body for text elements: each occurrence of an opening text
tag up to its closing tag contributes the enclosed character data.  This is
the model of DOMParser followed by getElementsByTagName over the transcript
XML; malformed bodies yield no text nodes, as the parser error document
does. -/
def scanTexts : Nat → List Char → List String
  | 0, _ => []
  | _ + 1, [] => []
  | fuel + 1, c :: rest =>
    if List.isPrefixOf "<text".data (c :: rest) then
      let afterOpen := rest.drop 4
      let afterGt := (afterOpen.dropWhile (fun ch => ch ≠ '>')).drop 1
      match findSub "</text>".data afterGt with
      | none => []
      | some (content, after) => String.mk content :: scanTexts fuel after
    else scanTexts fuel rest

/-- The text-node contents of a transcript XML body. -/
def xmlTextNodes (s : String) : List String :=
  scanTexts (s.data.length + 1) s.data

/-- The assembled transcript of an XML body: text nodes with line feeds
replaced by spaces, joined by spaces. -/
def joinedTexts (body : String) : String :=
  joinSpace ((xmlTextNodes body).map replNL)

/-- fetchTranscript: null with a logged error when no caption track exists,
when the first track has no truthy base URL, when the fetch fails or
throws, or when the parsed transcript joins to the empty (falsy) string;
otherwise the assembled transcript.  The effect trace records the network
fetch, when one is issued, and the error logs. -/
def fetchTranscript (env : YtEnv) (p : PlayerResponse) : Option String × List Eff :=
  match captionTracksOf p with
  | none => (none, [Eff.logE "No captions available"])
  | some [] => (none, [Eff.logE "No captions available"])
  | some (t :: _) =>
    match jsT t.baseUrl with
    | none => (none, [Eff.logE "Transcript URL missing"])
    | some url =>
      match env.fetchFn url with
      | .throws => (none, [Eff.httpGET url, Eff.logE "Error fetching transcript:"])
      | .notOk => (none, [Eff.httpGET url, Eff.logE "Failed to fetch transcript XML"])
      | .ok body => (jsT (some (joinedTexts body)), [Eff.httpGET url])

/-- getSummary: the first 200 characters with an ellipsis appended when the
text is longer, together with its log trace. -/
def getSummary (t : String) : String × List Eff :=
  (if 200 < t.length then t.take 200 ++ "..." else t,
   [Eff.logL "Processing text for summary...", Eff.logL "Text length:",
    Eff.logL "Generated summary:"])

/-- The effect trace of the skip branch of processVideo for a video id that
equals the stored one. -/
def skipTrace (v : String) : List Eff :=
  [Eff.logL "Starting processVideo function...",
   Eff.logL "Current video ID:",
   Eff.logL ("⏭ Same video (" ++ v ++ "), skipping")]

/-- processVideo: read the video id from the URL; bail out when it is
missing or empty, or when it equals the stored last video id; otherwise
store the new id first, then read the player response and, when present,
fetch the transcript and summarize it.  Returns the new stored id and the
effect trace. -/
def processVideo (env : YtEnv) (lastVideoId : Option String) : Option String × List Eff :=
  let l1 := [Eff.logL "Starting processVideo function...", Eff.logL "Current video ID:"]
  match jsT (getCurrentVideoId env) with
  | none => (lastVideoId, l1 ++ [Eff.logE "No video ID in URL"])
  | some v =>
    if lastVideoId = some v then
      (lastVideoId, l1 ++ [Eff.logL ("⏭ Same video (" ++ v ++ "), skipping")])
    else
      let l2 := l1 ++ [Eff.logL "▶ Processing video:",
        Eff.readPlayer, Eff.logL "Player response received:"]
      match env.player with
      | none => (some v, l2 ++ [Eff.logE "ytInitialPlayerResponse not found"])
      | some p =>
        let l3 := l2 ++ [Eff.logL "Attempting to fetch transcript..."]
        let ft := fetchTranscript env p
        let l4 := l3 ++ ft.2 ++ [Eff.logL "Transcript received:"]
        match jsT ft.1 with
        | none => (some v, l4 ++ [Eff.logE "Transcript not found or empty"])
        | some t =>
          let l5 := l4 ++ [Eff.logL "%c📜 Transcript:", Eff.logL "Generating summary..."]
          let s := getSummary t
          (some v, l5 ++ s.2 ++ [Eff.logL "%c📌 Summary:"])

/-! Model catalog and adapter registry. -/

/-- A catalog descriptor: provider model id, internal name, display name. -/
structure ModelDescriptor where
  model : String
  name : String
  display : String
deriving DecidableEq

/-- The fixed static model catalog VALID_MODELS. -/
def VALID_MODELS : List ModelDescriptor :=
  [{ model := "gpt-3.5-turbo", name := "openai_3.5_turbo", display := "GPT-3.5 Turbo" },
   { model := "gpt-4o", name := "openai_4o", display := "GPT-4 Optimized" },
   { model := "gemini-2.0-flash", name := "gemini_2.0_flash", display := "Gemini 2.0 Flash" }]

/-- The adapter registry as the association of each registry key with the
name field of the adapter object.  The gemini_2.0_flash adapter name is
taken from the GeminiAI_2_0_flash class in the source.  Modelled from the
spec: the OpenAI_3_5_turbo and OpenAi_4o adapter classes are not in the
provided sources, so their name fields are taken from the specification,
which says each adapter looks its provider model id up in the catalog by
matching on its internal name (the registry key). -/
def modals : List (String × String) :=
  [("openai_3.5_turbo", "openai_3.5_turbo"),
   ("openai_4o", "openai_4o"),
   ("gemini_2.0_flash", "gemini_2.0_flash")]

/-- The catalog lookup each adapter performs on its own name field. -/
def catalogLookup (n : String) : Option ModelDescriptor :=
  VALID_MODELS.find? (fun m => m.name == n)

/-! Concrete fixtures used by witnesses. -/

/-- A concrete YouTube environment: a URL carrying video id abc, no player
response, a failing network. -/
def ytEnvA : YtEnv :=
  { search := "?v=abc", player := none, fetchFn := fun _ => FetchOutcome.notOk }

/-- A player response without a captions object. -/
def playerNoCaptions : PlayerResponse := { captions := none }

/-- The trace of a processVideo run that stores a new id and then finds no
player response. -/
def noPlayerTrace : List Eff :=
  [Eff.logL "Starting processVideo function...", Eff.logL "Current video ID:",
   Eff.logL "▶ Processing video:", Eff.readPlayer,
   Eff.logL "Player response received:", Eff.logE "ytInitialPlayerResponse not found"]

/-! Logger lemmas. -/

/-- Dropping down to the last n elements of a list already at most n long
is the identity. -/
theorem drop_sub_of_le {α : Type} {l : List α} {n : Nat} (h : l.length ≤ n) :
    l.drop (l.length - n) = l := by
  have h0 : l.length - n = 0 := by omega
  simp [h0]

/-- Keeping the last n elements, appending, and keeping the last n again is
the same as appending and keeping the last n. -/
theorem lastN_absorb {α : Type} (n : Nat) (xs ys : List α) :
    ((xs.drop (xs.length - n)) ++ ys).drop (((xs.drop (xs.length - n)) ++ ys).length - n)
      = (xs ++ ys).drop ((xs ++ ys).length - n) := by
  rcases le_or_lt xs.length n with h | h
  · have h0 : xs.length - n = 0 := by omega
    simp [h0]
  · have hk : xs.length - n ≤ xs.length := Nat.sub_le _ _
    have hlen : (xs.drop (xs.length - n)).length = n := by
      rw [List.length_drop]; omega
    rw [List.length_append, hlen, List.length_append]
    have h1 : n + ys.length - n = ys.length := by omega
    have h2 : xs.length + ys.length - n = (xs.length - n) + ys.length := by omega
    rw [h1, h2, ← List.drop_drop ys.length (xs.length - n) (xs ++ ys),
      List.drop_append_of_le_length hk]

/-- addEntry keeps the buffer within capacity. -/
theorem addEntry_length_le (buf : List String) (e : String) (h : buf.length ≤ maxLogs) :
    (addEntry buf e).length ≤ maxLogs := by
  unfold addEntry
  split
  · rw [List.length_drop]; omega
  · next hle =>
    rw [List.length_append] at hle ⊢
    simp at hle ⊢
    omega

/-- addEntry on an in-capacity buffer is exactly keeping the last maxLogs
elements of the extended buffer. -/
theorem addEntry_eq (buf : List String) (e : String) (h : buf.length ≤ maxLogs) :
    addEntry buf e = (buf ++ [e]).drop ((buf ++ [e]).length - maxLogs) := by
  unfold addEntry
  split
  · rfl
  · next hle =>
    have h0 : (buf ++ [e]).length - maxLogs = 0 := by omega
    rw [h0, List.drop_zero]

/-- Folding addEntry over a message list keeps exactly the last maxLogs of
the concatenation. -/
theorem foldl_addEntry (msgs : List String) : ∀ buf : List String, buf.length ≤ maxLogs →
    List.foldl addEntry buf msgs = (buf ++ msgs).drop ((buf ++ msgs).length - maxLogs) := by
  induction msgs with
  | nil =>
    intro buf h
    rw [List.foldl_nil, List.append_nil]
    exact (drop_sub_of_le h).symm
  | cons m rest ih =>
    intro buf h
    rw [List.foldl_cons, ih _ (addEntry_length_le buf m h), addEntry_eq buf m h,
      lastN_absorb maxLogs (buf ++ [m]) rest, List.append_assoc, List.singleton_append]

/-- The in-memory buffer of a fold of log calls is the fold of addEntry
over the formatted entries. -/
theorem foldl_logCall_logs (avail : Bool) (calls : List (String × String)) :
    ∀ st : LoggerState,
      (List.foldl (fun s pr => logCall avail s pr.1 pr.2) st calls).logs
        = List.foldl addEntry st.logs
            (calls.map (fun pr => formatEntry pr.1 LogLevel.log pr.2 "")) := by
  induction calls with
  | nil => intro st; rfl
  | cons c rest ih =>
    intro st
    rw [List.foldl_cons, ih, List.map_cons, List.foldl_cons]
    rfl

/-- Claim C5: the in-memory log buffer never exceeds 1000 entries, and
after any 1500 sequential log() calls from the empty state the buffer is
exactly the formatted entries of the last 1000 calls in order (the oldest
500 are dropped, FIFO). -/
theorem c5_logger_capacity_fifo :
    (∀ (avail : Bool) (calls : List (String × String)),
      (List.foldl (fun s pr => logCall avail s pr.1 pr.2) initLogger calls).logs.length ≤ 1000)
    ∧ (∀ (avail : Bool) (calls : List (String × String)), calls.length = 1500 →
      (List.foldl (fun s pr => logCall avail s pr.1 pr.2) initLogger calls).logs
        = (calls.map (fun pr => formatEntry pr.1 LogLevel.log pr.2 "")).drop 500
      ∧ (List.foldl (fun s pr => logCall avail s pr.1 pr.2) initLogger calls).logs.length
          = 1000) := by
  have key : ∀ (avail : Bool) (calls : List (String × String)),
      (List.foldl (fun s pr => logCall avail s pr.1 pr.2) initLogger calls).logs
        = (calls.map (fun pr => formatEntry pr.1 LogLevel.log pr.2 "")).drop
            ((calls.map (fun pr => formatEntry pr.1 LogLevel.log pr.2 "")).length - maxLogs) := by
    intro avail calls
    rw [foldl_logCall_logs]
    have h0 := foldl_addEntry
      (calls.map (fun pr => formatEntry pr.1 LogLevel.log pr.2 "")) [] (Nat.zero_le _)
    rw [List.nil_append] at h0
    exact h0
  constructor
  · intro avail calls
    rw [key, List.length_drop]
    have : maxLogs = 1000 := rfl
    omega
  · intro avail calls hlen
    have hm : (calls.map (fun pr => formatEntry pr.1 LogLevel.log pr.2 "")).length = 1500 := by
      rw [List.length_map, hlen]
    constructor
    · rw [key, hm]
      have : maxLogs = 1000 := rfl
      rw [this]
    · rw [key, List.length_drop, hm]
      have : maxLogs = 1000 := rfl
      omega

/-- Witness for C5 at a concrete sequence of 1500 log calls. -/
theorem c5_witness :
    (List.foldl (fun s pr => logCall true s pr.1 pr.2) initLogger
        (List.replicate 1500 ("t", "m"))).logs
      = ((List.replicate 1500 ("t", "m")).map
          (fun pr => formatEntry pr.1 LogLevel.log pr.2 "")).drop 500 :=
  (c5_logger_capacity_fifo.2 true (List.replicate 1500 ("t", "m"))
    (by rw [List.length_replicate])).1

/-- Claim C8: getLogs returns the persisted buffer when the persisted store
is available, and otherwise the in-memory buffer; after a log call in
either regime it returns the current buffer. -/
theorem c8_getLogs_persisted_else_memory :
    ∀ st : LoggerState,
      (getLogs true st = st.stored.getD [] ∧ getLogs false st = st.logs)
      ∧ ∀ e : String,
          getLogs true (addLogFull true st e) = (addLogFull true st e).logs
          ∧ getLogs false (addLogFull false st e) = (addLogFull false st e).logs :=
  fun _ => ⟨⟨rfl, rfl⟩, fun _ => ⟨rfl, rfl⟩⟩

/-- Claim C9: catalog names are pairwise distinct, each registry key has
exactly one catalog descriptor with that name, each registered adapter
object has a name equal to its registry key, and the catalog
lookup by that name succeeds and returns a descriptor with that name. -/
theorem c9_catalog_registry_consistent :
    VALID_MODELS.Pairwise (fun a b => a.name ≠ b.name)
    ∧ modals.all (fun kv =>
        ((VALID_MODELS.filter (fun m => m.name == kv.1)).length == 1)
        && (kv.2 == kv.1)
        && ((catalogLookup kv.2).map (fun m => m.name) == some kv.1)) = true := by
  constructor
  · decide
  · decide

/-- Claim C1: the extraction functions catch their error paths and degrade
to empty defaults (getMainContent and, through it, getDeDupedFullText
return the empty string when the body access throws), getAllPageContent is
pure aggregation of the constituent functions for every document, and on
the empty document every extracted field is empty. -/
theorem c1_getAllPageContent_never_throws_empty_defaults :
    (∀ (d : Doc) (e : DomErr), getMainContentE d = Except.error e → getMainContent d = "")
    ∧ (∀ (d : Doc) (e : DomErr), getMainContentE d = Except.error e → getDeDupedFullText d = "")
    ∧ (∀ d : Doc, getAllPageContent d =
        { title := getPageTitle d, description := getPageDescription d,
          mainContent := getMainContent d, visibleText := "",
          deDupedFullText := getDeDupedFullText d, url := d.url,
          metadata := getMetadata d, products := extractProducts d })
    ∧ getAllPageContent emptyDoc =
        { title := "", description := "", mainContent := "", visibleText := "",
          deDupedFullText := "", url := "", metadata := [], products := [] } := by
  refine ⟨?_, ?_, fun d => rfl, by decide⟩
  · intro d e h
    unfold getMainContent
    rw [h]
  · intro d e h
    unfold getDeDupedFullText getMainContent
    rw [h]
    rfl

/-- Witness for C1 at the document whose body access throws. -/
theorem c1_witness :
    getMainContentE noBodyDoc = Except.error DomErr.noBody
    ∧ getMainContent noBodyDoc = "" ∧ getDeDupedFullText noBodyDoc = "" :=
  ⟨rfl,
   c1_getAllPageContent_never_throws_empty_defaults.1 noBodyDoc DomErr.noBody rfl,
   c1_getAllPageContent_never_throws_empty_defaults.2.1 noBodyDoc DomErr.noBody rfl⟩

/-! Product extraction lemmas. -/

/-- The accumulator fold of extractProducts is filterMap. -/
theorem foldl_push_filterMap (f : Node → Option Product) (l : List Node) :
    ∀ acc : List Product,
      l.foldl (fun acc el => match f el with | some p => acc ++ [p] | none => acc) acc
        = acc ++ l.filterMap f := by
  induction l with
  | nil => intro acc; simp
  | cons n ns ih =>
    intro acc
    rw [List.foldl_cons]
    cases h : f n with
    | none => simp only [h]; rw [ih]; simp [List.filterMap_cons, h]
    | some p => simp only [h]; rw [ih]; simp [List.filterMap_cons, h]

/-- The selector loop returns the query results of the first selector that
matches at least one element, and the empty list when none does. -/
theorem findProductElements_eq_find (d : Doc) :
    ∀ sels : List String,
      findProductElements d sels =
        (match sels.find? (fun sel => !(qsaDoc d (matchesSel sel)).isEmpty) with
         | none => []
         | some sel => qsaDoc d (matchesSel sel)) := by
  intro sels
  induction sels with
  | nil => rfl
  | cons s rest ih =>
    rw [List.find?_cons]
    unfold findProductElements
    cases hq : qsaDoc d (matchesSel s) with
    | nil => simp [hq, ih]
    | cons x xs => simp [hq]

/-- Claim C4: extractProducts builds its result exclusively from the
elements matched by the first selector in the fixed ordered list that
yields at least one match; a matched element contributes a product exactly
when at least one of name, price, image URL was found; and when no selector
matches the result is empty. -/
theorem c4_extractProducts_first_selector_only :
    (∀ d : Doc,
      extractProducts d =
        (match productSelectors.find? (fun sel => !(qsaDoc d (matchesSel sel)).isEmpty) with
         | none => []
         | some sel => (qsaDoc d (matchesSel sel)).filterMap productOf))
    ∧ (∀ n : Node, (productOf n).isSome
        ↔ ((nameOf n).isSome = true ∨ (priceOf n).isSome = true ∨ (imgOf n).isSome = true))
    ∧ (∀ d : Doc, productSelectors.all (fun sel => (qsaDoc d (matchesSel sel)).isEmpty) = true
        → extractProducts d = []) := by
  have h1 : ∀ d : Doc,
      extractProducts d =
        (match productSelectors.find? (fun sel => !(qsaDoc d (matchesSel sel)).isEmpty) with
         | none => []
         | some sel => (qsaDoc d (matchesSel sel)).filterMap productOf) := by
    intro d
    unfold extractProducts
    rw [findProductElements_eq_find]
    cases hf : productSelectors.find? (fun sel => !(qsaDoc d (matchesSel sel)).isEmpty) with
    | none => rfl
    | some sel => simpa using foldl_push_filterMap productOf (qsaDoc d (matchesSel sel)) []
  refine ⟨h1, ?_, ?_⟩
  · intro n
    unfold productOf
    by_cases h : ((nameOf n).isSome || (priceOf n).isSome || (imgOf n).isSome) = true
    · rw [if_pos h]
      simp only [Bool.or_eq_true] at h
      simp only [Option.isSome_some]
      exact ⟨fun _ => by tauto, fun _ => by trivial⟩
    · rw [if_neg h]
      simp only [Bool.or_eq_true] at h
      simp only [Option.isSome_none]
      exact ⟨fun hf => absurd hf (by decide), fun hd => (h (by tauto)).elim⟩
  · intro d hall
    rw [h1 d]
    have hnone : productSelectors.find? (fun sel => !(qsaDoc d (matchesSel sel)).isEmpty)
        = none := by
      rw [List.find?_eq_none]
      intro sel hsel
      have := List.all_eq_true.mp hall sel hsel
      simp [this]
    rw [hnone]

/-- Witness for C4 at a document with no product containers. -/
theorem c4_witness :
    productSelectors.all (fun sel => (qsaDoc noBodyDoc (matchesSel sel)).isEmpty) = true
    ∧ extractProducts noBodyDoc = [] :=
  ⟨rfl, c4_extractProducts_first_selector_only.2.2 noBodyDoc rfl⟩

/-! YouTube handler lemmas. -/

/-- When the stored last video id equals the current one, processVideo is
the skip branch: state unchanged, only the skip logs emitted. -/
theorem processVideo_skip (env : YtEnv) (v : String)
    (hv : jsT (getCurrentVideoId env) = some v) :
    processVideo env (some v) = (some v, skipTrace v) := by
  unfold processVideo
  rw [hv]
  simp [skipTrace]

/-- Whatever the stored id and whatever the extraction outcome, a call that
sees a truthy video id stores exactly that id. -/
theorem processVideo_fst (env : YtEnv) (last : Option String) (v : String)
    (hv : jsT (getCurrentVideoId env) = some v) :
    (processVideo env last).1 = some v := by
  unfold processVideo
  rw [hv]
  dsimp only
  by_cases h : last = some v
  · rw [if_pos h, h]
  · rw [if_neg h]
    split
    · rfl
    · split
      · rfl
      · rfl

/-- Claim C6: a processVideo call whose video id equals the stored last
video id performs no extraction work: it returns with the state unchanged
and a trace of logs only (no player-response read, no fetch); hence after
any first call for the id, a second call for the same id is exactly that
skip. -/
theorem c6_processVideo_same_id_noop :
    ∀ (env : YtEnv) (last : Option String) (v : String),
      getCurrentVideoId env = some v → v ≠ "" →
      (last = some v → processVideo env last = (last, skipTrace v))
      ∧ (skipTrace v).all (fun e => !isWork e) = true
      ∧ processVideo env (processVideo env last).1 = (some v, skipTrace v) := by
  intro env last v hv hne
  have hjt : jsT (getCurrentVideoId env) = some v := by
    rw [hv]
    unfold jsT
    dsimp only
    rw [if_neg hne]
  refine ⟨?_, ?_, ?_⟩
  · intro hlast
    rw [hlast]
    exact processVideo_skip env v hjt
  · simp [skipTrace, isWork]
  · rw [processVideo_fst env last v hjt]
    exact processVideo_skip env v hjt

/-- Witness for C6 at a concrete environment and id. -/
theorem c6_witness :
    processVideo ytEnvA (some "abc") = (some "abc", skipTrace "abc")
    ∧ processVideo ytEnvA (processVideo ytEnvA none).1 = (some "abc", skipTrace "abc") :=
  ⟨(c6_processVideo_same_id_noop ytEnvA (some "abc") "abc" (by decide) (by decide)).1 rfl,
   (c6_processVideo_same_id_noop ytEnvA none "abc" (by decide) (by decide)).2.2⟩

/-- Claim C10: when the current video id differs from the stored one,
processVideo stores the new id before any extraction work, and the state is
not rolled back on failure: with no player response available the call
still ends with the new id stored (and the error trace), so a later call
for the same id is the skip no-op even though no transcript was ever
produced. -/
theorem c10_processVideo_sets_id_before_extraction :
    ∀ (env : YtEnv) (last : Option String) (v : String),
      getCurrentVideoId env = some v → v ≠ "" → last ≠ some v →
      (processVideo env last).1 = some v
      ∧ (env.player = none → processVideo env last = (some v, noPlayerTrace))
      ∧ (env.player = none →
          processVideo env (processVideo env last).1 = (some v, skipTrace v)) := by
  intro env last v hv hne hlast
  have hjt : jsT (getCurrentVideoId env) = some v := by
    rw [hv]
    unfold jsT
    dsimp only
    rw [if_neg hne]
  refine ⟨processVideo_fst env last v hjt, ?_, ?_⟩
  · intro hp
    unfold processVideo
    rw [hjt]
    dsimp only
    rw [if_neg hlast, hp]
    simp [noPlayerTrace]
  · intro _
    rw [processVideo_fst env last v hjt]
    exact processVideo_skip env v hjt

/-- Witness for C10 at a concrete environment whose player response is
missing. -/
theorem c10_witness :
    (processVideo ytEnvA none).1 = some "abc"
    ∧ processVideo ytEnvA none = (some "abc", noPlayerTrace)
    ∧ processVideo ytEnvA (processVideo ytEnvA none).1 = (some "abc", skipTrace "abc") := by
  have h := c10_processVideo_sets_id_before_extraction ytEnvA none "abc"
    (by decide) (by decide) (by decide)
  exact ⟨h.1, h.2.1 rfl, h.2.2 rfl⟩

/-- Claim C7: fetchTranscript returns null with a logged error and without
fetching when the player response has no caption track list or an empty
one, or when the first track has no truthy base URL; it returns null after
fetching when the response is not ok or the fetch throws; and it returns
null when the fetched XML yields no transcript text. -/
theorem c7_fetchTranscript_failure_paths :
    (∀ (env : YtEnv) (p : PlayerResponse),
      (captionTracksOf p = none ∨ captionTracksOf p = some []) →
      fetchTranscript env p = (none, [Eff.logE "No captions available"]))
    ∧ (∀ (env : YtEnv) (p : PlayerResponse) (t : CaptionTrack) (rest : List CaptionTrack),
      captionTracksOf p = some (t :: rest) → jsT t.baseUrl = none →
      fetchTranscript env p = (none, [Eff.logE "Transcript URL missing"]))
    ∧ (∀ (env : YtEnv) (p : PlayerResponse) (t : CaptionTrack) (rest : List CaptionTrack)
        (u : String),
      captionTracksOf p = some (t :: rest) → jsT t.baseUrl = some u →
      (env.fetchFn u = FetchOutcome.notOk →
        fetchTranscript env p
          = (none, [Eff.httpGET u, Eff.logE "Failed to fetch transcript XML"]))
      ∧ (env.fetchFn u = FetchOutcome.throws →
        fetchTranscript env p
          = (none, [Eff.httpGET u, Eff.logE "Error fetching transcript:"]))
      ∧ (∀ body : String, env.fetchFn u = FetchOutcome.ok body → joinedTexts body = "" →
        fetchTranscript env p = (none, [Eff.httpGET u])))
    ∧ ([Eff.logE "No captions available"].all (fun e => !isWork e) = true
      ∧ [Eff.logE "Transcript URL missing"].all (fun e => !isWork e) = true) := by
  refine ⟨?_, ?_, ?_, by decide, by decide⟩
  · intro env p hp
    unfold fetchTranscript
    rcases hp with h | h
    · rw [h]
    · rw [h]
  · intro env p t rest hp hb
    unfold fetchTranscript
    rw [hp]
    dsimp only
    rw [hb]
  · intro env p t rest u hp hb
    refine ⟨?_, ?_, ?_⟩
    · intro hf
      unfold fetchTranscript
      rw [hp]
      dsimp only
      rw [hb]
      dsimp only
      rw [hf]
    · intro hf
      unfold fetchTranscript
      rw [hp]
      dsimp only
      rw [hb]
      dsimp only
      rw [hf]
    · intro body hf hj
      unfold fetchTranscript
      rw [hp]
      dsimp only
      rw [hb]
      dsimp only
      rw [hf]
      dsimp only
      rw [hj]
      rfl

/-- Witness for C7 at a player response without captions. -/
theorem c7_witness :
    fetchTranscript ytEnvA playerNoCaptions = (none, [Eff.logE "No captions available"]) :=
  c7_fetchTranscript_failure_paths.1 ytEnvA playerNoCaptions (Or.inl rfl)

/-! Line-splitting lemmas for C2: the CRLF split and the LF split produce
the same lines up to one trailing carriage return, which trimming
removes. -/

/-- A CRLF-split line and the corresponding LF-split line: the latter may
carry one extra trailing carriage return. -/
def RelCR (a b : List Char) : Prop := b = a ∨ b = a ++ ['\r']

/-- Conditional equation for splitLF on a non-newline head. -/
theorem splitLF_cons_ne (c : Char) (rest : List Char) (hc : ¬ c = '\n') :
    splitLF (c :: rest) = consHead c (splitLF rest) := by
  rw [splitLF.eq_def]
  split
  · next heq => simp at heq
  · next heq => rw [List.cons.injEq] at heq; exact absurd heq.1 hc
  · next _ heq => rw [List.cons.injEq] at heq; rw [heq.1, heq.2]

/-- Conditional equation for splitCRLF on a head that is neither a newline
nor a carriage return. -/
theorem splitCRLF_cons_ne (c : Char) (rest : List Char) (hc : ¬ c = '\n') (hr : ¬ c = '\r') :
    splitCRLF (c :: rest) = consHead c (splitCRLF rest) := by
  rw [splitCRLF.eq_def]
  split
  · next heq => simp at heq
  · next heq => rw [List.cons.injEq] at heq; exact absurd heq.1 hr
  · next heq => rw [List.cons.injEq] at heq; exact absurd heq.1 hc
  · next _ _ heq => rw [List.cons.injEq] at heq; rw [heq.1, heq.2]

/-- Conditional equation for splitCRLF on a carriage return not followed by
a newline. -/
theorem splitCRLF_r_cons (c2 : Char) (rest2 : List Char) (hc2 : ¬ c2 = '\n') :
    splitCRLF ('\r' :: c2 :: rest2) = consHead '\r' (splitCRLF (c2 :: rest2)) := by
  rw [splitCRLF.eq_def]
  split
  · next heq => simp at heq
  · next heq =>
    rw [List.cons.injEq, List.cons.injEq] at heq
    exact absurd heq.2.1 hc2
  · next heq => rw [List.cons.injEq] at heq; exact absurd heq.1 (by decide)
  · next _ _ heq =>
    rw [List.cons.injEq] at heq
    rw [← heq.1, ← heq.2]

/-- Right-trimming ignores one appended whitespace character. -/
theorem trimR_append_ws {w : Char} (hw : isWS w = true) :
    ∀ l : List Char, trimR (l ++ [w]) = trimR l := by
  intro l
  induction l with
  | nil => simp [trimR, hw]
  | cons c l ih =>
    show trimR (c :: (l ++ [w])) = trimR (c :: l)
    unfold trimR
    rw [ih]

/-- Trimming ignores one appended whitespace character. -/
theorem jsTrim_append_ws {w : Char} (hw : isWS w = true) (l : List Char) :
    jsTrim (l ++ [w]) = jsTrim l := by
  unfold jsTrim
  rw [trimR_append_ws hw]

/-- consHead respects the trailing-carriage-return relation between line
lists. -/
theorem consHead_rel (c : Char) {l1 l2 : List (List Char)}
    (h : List.Forall₂ RelCR l1 l2) :
    List.Forall₂ RelCR (consHead c l1) (consHead c l2) := by
  cases h with
  | nil => exact List.Forall₂.cons (Or.inl rfl) List.Forall₂.nil
  | cons hr htail =>
    rename_i a b as bs
    refine List.Forall₂.cons ?_ htail
    rcases hr with h | h
    · exact Or.inl (by rw [h])
    · exact Or.inr (by rw [h]; rfl)

/-- The CRLF split and the LF split of the same text are related line by
line: each LF line is the CRLF line, possibly with one extra trailing
carriage return. -/
theorem splitCRLF_rel : ∀ cs : List Char,
    List.Forall₂ RelCR (splitCRLF cs) (splitLF cs) := by
  intro cs
  induction cs using splitCRLF.induct with
  | case1 => exact List.Forall₂.cons (Or.inl rfl) List.Forall₂.nil
  | case2 rest ih =>
    rw [show splitCRLF ('\r' :: '\n' :: rest) = [] :: splitCRLF rest from rfl,
      splitLF_cons_ne '\r' ('\n' :: rest) (by decide),
      show splitLF ('\n' :: rest) = [] :: splitLF rest from rfl]
    exact List.Forall₂.cons (Or.inr rfl) ih
  | case3 rest ih =>
    rw [show splitCRLF ('\n' :: rest) = [] :: splitCRLF rest from rfl,
      show splitLF ('\n' :: rest) = [] :: splitLF rest from rfl]
    exact List.Forall₂.cons (Or.inl rfl) ih
  | case4 c rest h1 h2 ih =>
    have hc : ¬ c = '\n' := h2
    rw [splitLF_cons_ne c rest hc]
    by_cases hr : c = '\r'
    · subst hr
      cases rest with
      | nil => exact List.Forall₂.cons (Or.inl rfl) List.Forall₂.nil
      | cons c2 rest2 =>
        have hc2 : ¬ c2 = '\n' := fun h => h1 rest2 rfl (by rw [h])
        rw [splitCRLF_r_cons c2 rest2 hc2]
        exact consHead_rel '\r' ih
    · rw [splitCRLF_cons_ne c rest hc hr]
      exact consHead_rel c ih

/-- Related line lists have the same trimmed lines. -/
theorem map_jsTrim_rel : ∀ {l1 l2 : List (List Char)}, List.Forall₂ RelCR l1 l2 →
    l1.map jsTrim = l2.map jsTrim := by
  intro l1 l2 h
  induction h with
  | nil => rfl
  | cons hr _ ih =>
    rename_i a b as bs
    rw [List.map_cons, List.map_cons, ih]
    rcases hr with h | h
    · rw [h]
    · rw [h, jsTrim_append_ws (by decide)]

/-- Trimmed lines agree between the two splits. -/
theorem map_jsTrim_split_eq (cs : List Char) :
    (splitCRLF cs).map jsTrim = (splitLF cs).map jsTrim :=
  map_jsTrim_rel (splitCRLF_rel cs)

/-- Canonicalize every whitespace character to a space. -/
def wsCanon (c : Char) : Char := if isWS c then ' ' else c

/-- Canonicalization preserves whitespace-ness. -/
theorem isWS_wsCanon (c : Char) : isWS (wsCanon c) = isWS c := by
  unfold wsCanon
  by_cases h : isWS c = true
  · rw [if_pos h, h]
    decide
  · rw [if_neg h]

/-- Whitespace collapse only looks at whitespace-ness, so canonicalizing
first changes nothing. -/
theorem squash_map_canon : ∀ l : List Char, squashWS (l.map wsCanon) = squashWS l := by
  intro l
  induction l using squashWS.induct with
  | case1 => rfl
  | case2 c =>
    show squashWS [wsCanon c] = squashWS [c]
    unfold squashWS
    by_cases h : isWS c = true
    · rw [show wsCanon c = ' ' from by unfold wsCanon; rw [if_pos h], if_pos h]
      decide
    · rw [show wsCanon c = c from by unfold wsCanon; rw [if_neg h]]
  | case3 a b rest hab ih =>
    show squashWS (wsCanon a :: wsCanon b :: rest.map wsCanon)
      = squashWS (a :: b :: rest)
    unfold squashWS
    rw [isWS_wsCanon, isWS_wsCanon, if_pos hab, if_pos hab, ← List.map_cons]
    exact ih
  | case4 a b rest hab ih =>
    show squashWS (wsCanon a :: wsCanon b :: rest.map wsCanon)
      = squashWS (a :: b :: rest)
    unfold squashWS
    rw [isWS_wsCanon, isWS_wsCanon, if_neg hab, if_neg hab, ← List.map_cons, ih]
    by_cases h : isWS a = true
    · rw [if_pos h, if_pos h]
    · rw [if_neg h, if_neg h,
        show wsCanon a = a from by unfold wsCanon; rw [if_neg h]]

/-- Mapping a character function through joinSep. -/
theorem map_joinSep (f : Char → Char) (s : Char) :
    ∀ ls : List (List Char),
      (joinSep s ls).map f = joinSep (f s) (ls.map (List.map f)) := by
  intro ls
  induction ls with
  | nil => rfl
  | cons l ls ih =>
    cases ls with
    | nil => rfl
    | cons l2 ls2 =>
      show (l ++ s :: joinSep s (l2 :: ls2)).map f
        = List.map f l ++ f s :: joinSep (f s) ((l2 :: ls2).map (List.map f))
      rw [List.map_append, List.map_cons, ih]

/-- Joining the kept lines with a newline or with a space gives the same
text after whitespace collapse. -/
theorem squash_joinSep_sep (ls : List (List Char)) :
    squashWS (joinSep '\n' ls) = squashWS (joinSep ' ' ls) := by
  rw [← squash_map_canon (joinSep '\n' ls), ← squash_map_canon (joinSep ' ' ls),
    map_joinSep, map_joinSep,
    show wsCanon '\n' = ' ' from rfl, show wsCanon ' ' = ' ' from rfl]

/-- The source de-duplication pipeline agrees with the specification
reference pipeline on every text. -/
theorem codeDedup_eq_specDedup (cs : List Char) :
    codeDedupChars cs = specDedupChars cs := by
  simp only [codeDedupChars, specDedupChars]
  rw [map_jsTrim_split_eq, squash_joinSep_sep]

/-- Claim C2: for every document, getDeDupedFullText equals the reference
function of the specification (split on newlines, trim, discard lines of
length at most one, de-duplicate keeping first occurrences, rejoin, and
normalize whitespace runs to single spaces, trimmed) applied to the cleaned
full body text returned by getMainContent. -/
theorem c2_getDeDupedFullText_matches_reference :
    ∀ d : Doc, getDeDupedFullText d = specDedupText (getMainContent d) := by
  intro d
  unfold getDeDupedFullText dedupeText specDedupText
  rw [codeDedup_eq_specDedup]

/-! Idempotence development for C3. -/

/-- Conditional equation for trimR when the trimmed tail is empty. -/
theorem trimR_cons_nil {rest : List Char} (h : trimR rest = []) (c : Char) :
    trimR (c :: rest) = if isWS c = true then [] else [c] := by
  unfold trimR
  rw [h]

/-- Conditional equation for trimR when the trimmed tail is nonempty. -/
theorem trimR_cons_cons {rest : List Char} {r : Char} {rs : List Char}
    (h : trimR rest = r :: rs) (c : Char) :
    trimR (c :: rest) = c :: r :: rs := by
  unfold trimR
  rw [h]

/-- Right-trimming is idempotent. -/
theorem trimR_idem : ∀ l : List Char, trimR (trimR l) = trimR l := by
  intro l
  induction l with
  | nil => rfl
  | cons c rest ih =>
    cases h : trimR rest with
    | nil =>
      rw [trimR_cons_nil h c]
      by_cases hc : isWS c = true
      · rw [if_pos hc]
        rfl
      · rw [if_neg hc, @trimR_cons_nil [] rfl c, if_neg hc]
    | cons r rs =>
      rw [h] at ih
      rw [trimR_cons_cons h c, trimR_cons_cons ih c]

/-- Dropping a prefix of whitespace twice is the same as once. -/
theorem dropWhile_idem (p : Char → Bool) : ∀ l : List Char,
    List.dropWhile p (List.dropWhile p l) = List.dropWhile p l := by
  intro l
  induction l with
  | nil => rfl
  | cons c rest ih =>
    by_cases h : p c = true
    · rw [List.dropWhile_cons_of_pos h]
      exact ih
    · rw [List.dropWhile_cons_of_neg h, List.dropWhile_cons_of_neg h]

/-- The last character of a right-trimmed list is not whitespace. -/
theorem trimR_getLast_not_ws : ∀ (l : List Char) (x : Char),
    (trimR l).getLast? = some x → isWS x = false := by
  intro l
  induction l with
  | nil => intro x hx; simp [trimR] at hx
  | cons c rest ih =>
    intro x hx
    cases h : trimR rest with
    | nil =>
      rw [trimR_cons_nil h c] at hx
      by_cases hc : isWS c = true
      · rw [if_pos hc] at hx
        simp at hx
      · rw [if_neg hc] at hx
        simp at hx
        rw [← hx]
        rw [Bool.not_eq_true] at hc
        exact hc
    | cons r rs =>
      rw [trimR_cons_cons h c, List.getLast?_cons_cons, ← h] at hx
      exact ih x hx

/-- A list whose last character is not whitespace is a trimR fixed point. -/
theorem trimR_fix_of_last : ∀ l : List Char,
    (∀ x, l.getLast? = some x → isWS x = false) → trimR l = l := by
  intro l
  induction l with
  | nil => intro _; rfl
  | cons c rest ih =>
    intro hl
    cases rest with
    | nil =>
      have hc : isWS c = false := hl c rfl
      rw [@trimR_cons_nil [] rfl c, if_neg (by rw [hc]; exact Bool.false_ne_true)]
    | cons c2 rest2 =>
      have h2 : ∀ x, (c2 :: rest2).getLast? = some x → isWS x = false := by
        intro x hx
        exact hl x (by rw [List.getLast?_cons_cons]; exact hx)
      have ht : trimR (c2 :: rest2) = c2 :: rest2 := ih h2
      rw [trimR_cons_cons ht c]

/-- A nonempty suffix has the same last element as the whole list. -/
theorem getLast?_suffix {l s : List Char} (h : s <:+ l) (hs : s ≠ []) :
    s.getLast? = l.getLast? := by
  obtain ⟨t, rfl⟩ := h
  rw [List.getLast?_append]
  have hsome : s.getLast?.isSome := by
    cases s with
    | nil => exact absurd rfl hs
    | cons a as => rw [List.getLast?_eq_getLast _ (by simp)]; rfl
  obtain ⟨x, hx⟩ := Option.isSome_iff_exists.mp hsome
  rw [hx]
  rfl

/-- The whole trim is idempotent. -/
theorem jsTrim_idem (l : List Char) : jsTrim (jsTrim l) = jsTrim l := by
  unfold jsTrim
  have hfix : trimR (trimL (trimR l)) = trimL (trimR l) := by
    apply trimR_fix_of_last
    intro x hx
    have hsuf : trimL (trimR l) <:+ trimR l := List.dropWhile_suffix isWS
    by_cases hnil : trimL (trimR l) = []
    · rw [hnil] at hx
      simp at hx
    · rw [getLast?_suffix hsuf hnil] at hx
      exact trimR_getLast_not_ws l x hx
  rw [hfix]
  exact dropWhile_idem isWS (trimR l)

/-- Membership survives right-trimming towards the original list. -/
theorem mem_trimR {c : Char} : ∀ {l : List Char}, c ∈ trimR l → c ∈ l := by
  intro l
  induction l with
  | nil => intro h; simp [trimR] at h
  | cons a rest ih =>
    intro h
    cases hr : trimR rest with
    | nil =>
      rw [trimR_cons_nil hr a] at h
      by_cases ha : isWS a = true
      · rw [if_pos ha] at h
        simp at h
      · rw [if_neg ha] at h
        simp at h
        simp [h]
    | cons r rs =>
      rw [trimR_cons_cons hr a] at h
      rcases List.mem_cons.mp h with h | h
      · simp [h]
      · exact List.mem_cons_of_mem a (ih (by rw [hr]; exact h))

/-- Membership survives trimming towards the original list. -/
theorem mem_jsTrim {c : Char} {l : List Char} (h : c ∈ jsTrim l) : c ∈ l := by
  unfold jsTrim at h
  exact mem_trimR ((List.dropWhile_suffix isWS).sublist.subset h)

/-- Whitespace collapse leaves no line feed behind. -/
theorem no_nl_squash : ∀ l : List Char, '\n' ∉ squashWS l := by
  intro l
  induction l using squashWS.induct with
  | case1 => simp [squashWS]
  | case2 c =>
    intro h
    simp [squashWS] at h
    by_cases hc : isWS c = true
    · rw [if_pos hc] at h
      exact absurd h (by decide)
    · rw [if_neg hc] at h
      rw [← h] at hc
      exact hc (by decide)
  | case3 a b rest hab ih =>
    unfold squashWS
    rw [if_pos hab]
    exact ih
  | case4 a b rest hab ih =>
    unfold squashWS
    rw [if_neg hab]
    intro h
    rcases List.mem_cons.mp h with h | h
    · by_cases ha : isWS a = true
      · rw [if_pos ha] at h
        exact absurd h (by decide)
      · rw [if_neg ha] at h
        rw [← h] at ha
        exact ha (by decide)
    · exact ih h

/-- Conditional equation for squashWS on two leading whitespace
characters. -/
theorem squash_cons2_pos {a b : Char} {rest : List Char}
    (h : (isWS a && isWS b) = true) :
    squashWS (a :: b :: rest) = squashWS (b :: rest) := by
  show (if (isWS a && isWS b) = true then squashWS (b :: rest)
    else (if isWS a = true then ' ' else a) :: squashWS (b :: rest)) = squashWS (b :: rest)
  rw [if_pos h]

/-- Conditional equation for squashWS when the two leading characters are
not both whitespace. -/
theorem squash_cons2_neg {a b : Char} {rest : List Char}
    (h : ¬ (isWS a && isWS b) = true) :
    squashWS (a :: b :: rest)
      = (if isWS a = true then ' ' else a) :: squashWS (b :: rest) := by
  show (if (isWS a && isWS b) = true then squashWS (b :: rest)
    else (if isWS a = true then ' ' else a) :: squashWS (b :: rest))
    = (if isWS a = true then ' ' else a) :: squashWS (b :: rest)
  rw [if_neg h]

/-- Whitespace collapse of a nonempty list is nonempty. -/
theorem squash_ne_nil (c : Char) (rest : List Char) : squashWS (c :: rest) ≠ [] := by
  induction rest generalizing c with
  | nil => simp [squashWS]
  | cons b r2 ih =>
    by_cases h : (isWS c && isWS b) = true
    · rw [squash_cons2_pos h]
      exact ih b
    · rw [squash_cons2_neg h]
      simp

/-- Whitespace collapse keeps a non-whitespace head in place. -/
theorem squash_head_nonws {b : Char} (hb : isWS b = false) (rest : List Char) :
    ∃ xs, squashWS (b :: rest) = b :: xs := by
  cases rest with
  | nil =>
    refine ⟨[], ?_⟩
    show [if isWS b = true then ' ' else b] = [b]
    rw [if_neg (by rw [hb]; exact Bool.false_ne_true)]
  | cons c2 r2 =>
    have h : ¬ (isWS b && isWS c2) = true := by
      rw [hb, Bool.false_and]
      exact Bool.false_ne_true
    rw [squash_cons2_neg h, if_neg (by rw [hb]; exact Bool.false_ne_true)]
    exact ⟨squashWS (c2 :: r2), rfl⟩

/-- A nonempty right-trimmed cons starts with the original head. -/
theorem trimR_cons_shape (c : Char) (rest : List Char) :
    trimR (c :: rest) = [] ∨ ∃ rs, trimR (c :: rest) = c :: rs := by
  cases h : trimR rest with
  | nil =>
    by_cases hc : isWS c = true
    · left
      rw [trimR_cons_nil h c, if_pos hc]
    · right
      exact ⟨[], by rw [trimR_cons_nil h c, if_neg hc]⟩
  | cons r rs => exact Or.inr ⟨r :: rs, trimR_cons_cons h c⟩

/-- Conditional equation for trimL on a whitespace head. -/
theorem trimL_cons_pos {c : Char} (hc : isWS c = true) (rest : List Char) :
    trimL (c :: rest) = trimL rest := by
  unfold trimL
  rw [List.dropWhile_cons_of_pos hc]

/-- Conditional equation for trimL on a non-whitespace head. -/
theorem trimL_cons_neg {c : Char} (hc : ¬ isWS c = true) (rest : List Char) :
    trimL (c :: rest) = c :: rest := by
  unfold trimL
  rw [List.dropWhile_cons_of_neg hc]

/-- Whitespace collapse commutes with left trimming. -/
theorem squash_trimL : ∀ l : List Char, squashWS (trimL l) = trimL (squashWS l) := by
  intro l
  induction l using squashWS.induct with
  | case1 => rfl
  | case2 c =>
    by_cases hc : isWS c = true
    · rw [trimL_cons_pos hc []]
      rw [show squashWS [c] = [' '] from by
        show [if isWS c = true then ' ' else c] = [' ']; rw [if_pos hc]]
      rfl
    · rw [trimL_cons_neg hc []]
      rw [show squashWS [c] = [c] from by
        show [if isWS c = true then ' ' else c] = [c]; rw [if_neg hc]]
      rw [trimL_cons_neg hc []]
  | case3 a b rest hab ih =>
    have ha : isWS a = true := (Bool.and_eq_true_iff.mp hab).1
    rw [squash_cons2_pos hab, trimL_cons_pos ha (b :: rest)]
    exact ih
  | case4 a b rest hab ih =>
    rw [squash_cons2_neg hab]
    by_cases ha : isWS a = true
    · rw [trimL_cons_pos ha (b :: rest), if_pos ha,
        trimL_cons_pos (show isWS ' ' = true from rfl) (squashWS (b :: rest)), ih]
    · rw [trimL_cons_neg ha (b :: rest), if_neg ha,
        trimL_cons_neg ha (squashWS (b :: rest)), squash_cons2_neg hab, if_neg ha]

/-- A non-whitespace head survives right trimming. -/
theorem trimR_cons_nonws_ne_nil {b : Char} (hb : isWS b = false) (rest : List Char) :
    trimR (b :: rest) ≠ [] := by
  cases h : trimR rest with
  | nil =>
    rw [trimR_cons_nil h b, if_neg (by rw [hb]; exact Bool.false_ne_true)]
    simp
  | cons r rs =>
    rw [trimR_cons_cons h b]
    simp

/-- Whitespace collapse commutes with right trimming. -/
theorem squash_trimR : ∀ l : List Char, squashWS (trimR l) = trimR (squashWS l) := by
  intro l
  induction l using squashWS.induct with
  | case1 => rfl
  | case2 c =>
    by_cases hc : isWS c = true
    · rw [show trimR [c] = [] from by rw [@trimR_cons_nil [] rfl c, if_pos hc]]
      rw [show squashWS [c] = [' '] from by
        show [if isWS c = true then ' ' else c] = [' ']; rw [if_pos hc]]
      rw [show trimR [' '] = [] from by
        rw [@trimR_cons_nil [] rfl ' ', if_pos (show isWS ' ' = true from rfl)]]
      rfl
    · rw [show trimR [c] = [c] from by rw [@trimR_cons_nil [] rfl c, if_neg hc]]
      rw [show squashWS [c] = [c] from by
        show [if isWS c = true then ' ' else c] = [c]; rw [if_neg hc]]
      rw [show trimR [c] = [c] from by rw [@trimR_cons_nil [] rfl c, if_neg hc]]
  | case3 a b rest hab ih =>
    have ha : isWS a = true := (Bool.and_eq_true_iff.mp hab).1
    rw [squash_cons2_pos hab]
    rcases trimR_cons_shape b rest with hnil | ⟨rs2, hshape⟩
    · rw [trimR_cons_nil hnil a, if_pos ha]
      rw [hnil] at ih
      exact ih
    · rw [trimR_cons_cons hshape a, squash_cons2_pos hab, ← ih, hshape]
  | case4 a b rest hab ih =>
    rw [squash_cons2_neg hab]
    by_cases ha : isWS a = true
    · have hb : isWS b = false := by
        cases hhb : isWS b
        · rfl
        · exact absurd (by rw [ha, hhb]; rfl) hab
      have hne := trimR_cons_nonws_ne_nil hb rest
      rcases trimR_cons_shape b rest with hnil | ⟨rs2, hshape⟩
      · exact absurd hnil hne
      · rw [trimR_cons_cons hshape a]
        rw [squash_cons2_neg (by rw [hb, Bool.and_false]; exact Bool.false_ne_true),
          if_pos ha]
        have hr : trimR (squashWS (b :: rest)) = squashWS (b :: rs2) := by
          rw [← ih, hshape]
        obtain ⟨xs, hx⟩ := squash_head_nonws hb rs2
        rw [hx] at hr
        rw [trimR_cons_cons hr ' ', hx]
    · rw [if_neg ha]
      cases hsh2 : trimR (b :: rest) with
      | nil =>
        rw [trimR_cons_nil hsh2 a, if_neg ha]
        have hT : trimR (squashWS (b :: rest)) = [] := by
          rw [← ih, hsh2]
          rfl
        rw [trimR_cons_nil hT a, if_neg ha]
        show [if isWS a = true then ' ' else a] = [a]
        rw [if_neg ha]
      | cons r rs =>
        rcases trimR_cons_shape b rest with hnil | ⟨rs2, hshape⟩
        · rw [hnil] at hsh2
          cases hsh2
        · rw [trimR_cons_cons hshape a]
          rw [squash_cons2_neg
            (by rw [Bool.not_eq_true] at ha; rw [ha, Bool.false_and]; exact Bool.false_ne_true),
            if_neg ha]
          have hr : trimR (squashWS (b :: rest)) = squashWS (b :: rs2) := by
            rw [← ih, hshape]
          cases hq : squashWS (b :: rs2) with
          | nil => exact absurd hq (squash_ne_nil b rs2)
          | cons q qs =>
            rw [hq] at hr
            rw [trimR_cons_cons hr a, ← hq]

/-- Whitespace collapse is idempotent. -/
theorem squash_idem : ∀ l : List Char, squashWS (squashWS l) = squashWS l := by
  intro l
  induction l using squashWS.induct with
  | case1 => rfl
  | case2 c =>
    by_cases hc : isWS c = true
    · rw [show squashWS [c] = [' '] from by
        show [if isWS c = true then ' ' else c] = [' ']; rw [if_pos hc]]
      rfl
    · have hsq : squashWS [c] = [c] := by
        show [if isWS c = true then ' ' else c] = [c]
        rw [if_neg hc]
      rw [hsq, hsq]
  | case3 a b rest hab ih =>
    rw [squash_cons2_pos hab]
    exact ih
  | case4 a b rest hab ih =>
    rw [squash_cons2_neg hab]
    by_cases ha : isWS a = true
    · have hb : isWS b = false := by
        cases hhb : isWS b
        · rfl
        · exact absurd (by rw [ha, hhb]; rfl) hab
      rw [if_pos ha]
      obtain ⟨xs, hx⟩ := squash_head_nonws hb rest
      rw [hx]
      rw [squash_cons2_neg (by rw [hb, Bool.and_false]; exact Bool.false_ne_true),
        if_pos (show isWS ' ' = true from rfl)]
      rw [hx] at ih
      rw [ih]
    · rw [if_neg ha]
      cases hq : squashWS (b :: rest) with
      | nil => exact absurd hq (squash_ne_nil b rest)
      | cons q qs =>
        rw [squash_cons2_neg
          (by rw [Bool.not_eq_true] at ha; rw [ha, Bool.false_and]; exact Bool.false_ne_true),
          if_neg ha]
        rw [hq] at ih
        rw [ih]

/-- The number of non-whitespace characters of a list. -/
def cntNW (l : List Char) : Nat := (l.filter (fun c => !isWS c)).length

/-- At most every character is non-whitespace. -/
theorem cntNW_le_length (l : List Char) : cntNW l ≤ l.length :=
  List.length_filter_le _ l

/-- A whitespace head does not count. -/
theorem cntNW_cons_ws {c : Char} (hc : isWS c = true) (l : List Char) :
    cntNW (c :: l) = cntNW l := by
  simp [cntNW, List.filter_cons, hc]

/-- A non-whitespace head counts once. -/
theorem cntNW_cons_nonws {c : Char} (hc : isWS c = false) (l : List Char) :
    cntNW (c :: l) = cntNW l + 1 := by
  simp [cntNW, List.filter_cons, hc]

/-- Left trimming only discards whitespace. -/
theorem cnt_trimL : ∀ l : List Char, cntNW (trimL l) = cntNW l := by
  intro l
  induction l with
  | nil => rfl
  | cons c rest ih =>
    by_cases hc : isWS c = true
    · rw [trimL_cons_pos hc rest, ih, cntNW_cons_ws hc]
    · rw [trimL_cons_neg hc rest]

/-- Right trimming only discards whitespace. -/
theorem cnt_trimR : ∀ l : List Char, cntNW (trimR l) = cntNW l := by
  intro l
  induction l with
  | nil => rfl
  | cons c rest ih =>
    cases h : trimR rest with
    | nil =>
      rw [h] at ih
      by_cases hc : isWS c = true
      · rw [trimR_cons_nil h c, if_pos hc, cntNW_cons_ws hc, ← ih]
      · rw [Bool.not_eq_true] at hc
        rw [trimR_cons_nil h c, if_neg (by rw [hc]; exact Bool.false_ne_true),
          cntNW_cons_nonws hc, cntNW_cons_nonws hc, ← ih]
    | cons r rs =>
      rw [h] at ih
      by_cases hc : isWS c = true
      · rw [trimR_cons_cons h c, cntNW_cons_ws hc, cntNW_cons_ws hc, ih]
      · rw [Bool.not_eq_true] at hc
        rw [trimR_cons_cons h c, cntNW_cons_nonws hc, cntNW_cons_nonws hc, ih]

/-- Trimming only discards whitespace. -/
theorem cnt_jsTrim (l : List Char) : cntNW (jsTrim l) = cntNW l := by
  unfold jsTrim
  rw [cnt_trimL, cnt_trimR]

/-- Whitespace collapse only discards whitespace. -/
theorem cnt_squash : ∀ l : List Char, cntNW (squashWS l) = cntNW l := by
  intro l
  induction l using squashWS.induct with
  | case1 => rfl
  | case2 c =>
    by_cases hc : isWS c = true
    · rw [show squashWS [c] = [' '] from by
        show [if isWS c = true then ' ' else c] = [' ']; rw [if_pos hc]]
      rw [cntNW_cons_ws (show isWS ' ' = true from rfl), cntNW_cons_ws hc]
    · rw [show squashWS [c] = [c] from by
        show [if isWS c = true then ' ' else c] = [c]; rw [if_neg hc]]
  | case3 a b rest hab ih =>
    have ha : isWS a = true := (Bool.and_eq_true_iff.mp hab).1
    rw [squash_cons2_pos hab, ih, cntNW_cons_ws ha]
  | case4 a b rest hab ih =>
    rw [squash_cons2_neg hab]
    by_cases ha : isWS a = true
    · rw [if_pos ha, cntNW_cons_ws (show isWS ' ' = true from rfl), ih,
        cntNW_cons_ws ha]
    · rw [Bool.not_eq_true] at ha
      rw [if_neg (by rw [ha]; exact Bool.false_ne_true), cntNW_cons_nonws ha, ih,
        cntNW_cons_nonws ha]

/-- Non-whitespace characters add up over an append. -/
theorem cntNW_append (l1 l2 : List Char) :
    cntNW (l1 ++ l2) = cntNW l1 + cntNW l2 := by
  simp [cntNW, List.filter_append]

/-- Every joined line contributes its non-whitespace characters. -/
theorem cnt_joinSep_mem {sep : Char} {u : List Char} :
    ∀ {ls : List (List Char)}, u ∈ ls → cntNW u ≤ cntNW (joinSep sep ls) := by
  intro ls
  induction ls with
  | nil => intro h; simp at h
  | cons l ls ih =>
    intro h
    cases ls with
    | nil =>
      rcases List.mem_cons.mp h with h | h
      · rw [h]
        exact Nat.le_refl _
      · simp at h
    | cons l2 ls2 =>
      rw [show joinSep sep (l :: l2 :: ls2) = l ++ sep :: joinSep sep (l2 :: ls2) from rfl,
        cntNW_append]
      rcases List.mem_cons.mp h with h | h
      · rw [h]
        exact Nat.le_add_right _ _
      · have h1 := ih h
        have h2 : cntNW (joinSep sep (l2 :: ls2)) ≤ cntNW (sep :: joinSep sep (l2 :: ls2)) := by
          by_cases hs : isWS sep = true
          · rw [cntNW_cons_ws hs]
          · rw [Bool.not_eq_true] at hs
            rw [cntNW_cons_nonws hs]
            exact Nat.le_succ _
        omega

/-- The head of a left-trimmed list is not whitespace. -/
theorem trimL_head_not_ws : ∀ (l : List Char) (x : Char),
    (trimL l).head? = some x → isWS x = false := by
  intro l
  induction l with
  | nil => intro x hx; simp [trimL] at hx
  | cons c rest ih =>
    intro x hx
    by_cases hc : isWS c = true
    · rw [trimL_cons_pos hc rest] at hx
      exact ih x hx
    · rw [trimL_cons_neg hc rest] at hx
      simp at hx
      rw [Bool.not_eq_true] at hc
      rw [← hx]
      exact hc

/-- The head of a trimmed list is not whitespace. -/
theorem jsTrim_head_not_ws (l : List Char) (x : Char)
    (hx : (jsTrim l).head? = some x) : isWS x = false :=
  trimL_head_not_ws (trimR l) x hx

/-- The last character of a trimmed list is not whitespace. -/
theorem jsTrim_last_not_ws (l : List Char) (x : Char)
    (hx : (jsTrim l).getLast? = some x) : isWS x = false := by
  have hsuf : trimL (trimR l) <:+ trimR l := List.dropWhile_suffix isWS
  by_cases hnil : trimL (trimR l) = []
  · unfold jsTrim at hx
    rw [hnil] at hx
    simp at hx
  · unfold jsTrim at hx
    rw [getLast?_suffix hsuf hnil] at hx
    exact trimR_getLast_not_ws l x hx

/-- A list of length at least two that is trimmed at both ends has at least
two non-whitespace characters. -/
theorem cnt_ge_two : ∀ l : List Char, 1 < l.length →
    (∀ x, l.head? = some x → isWS x = false) →
    (∀ x, l.getLast? = some x → isWS x = false) →
    2 ≤ cntNW l := by
  intro l hlen hhead hlast
  cases l with
  | nil => simp at hlen
  | cons a rest =>
    cases rest with
    | nil => simp at hlen
    | cons b r2 =>
      have ha : isWS a = false := hhead a rfl
      have hy : ∃ y, (b :: r2).getLast? = some y := by
        rw [List.getLast?_eq_getLast _ (by simp)]
        exact ⟨_, rfl⟩
      obtain ⟨y, hys⟩ := hy
      have hyw : isWS y = false := hlast y (by rw [List.getLast?_cons_cons]; exact hys)
      have hymem : y ∈ b :: r2 := by
        rw [List.getLast?_eq_getLast _ (by simp)] at hys
        have := List.getLast_mem (l := b :: r2) (by simp)
        rw [Option.some.injEq] at hys
        rw [hys] at this
        exact this
      have h1 : 1 ≤ cntNW (b :: r2) := by
        have hmf : y ∈ (b :: r2).filter (fun c => !isWS c) :=
          List.mem_filter.mpr ⟨hymem, by rw [hyw]; rfl⟩
        have := List.length_pos.mpr (List.ne_nil_of_mem hmf)
        exact this
      rw [cntNW_cons_nonws ha]
      omega

/-- De-duplication only keeps lines of the input. -/
theorem dedupFirst_subset {x : List Char} :
    ∀ {l seen : List (List Char)}, x ∈ dedupFirstAux seen l → x ∈ l := by
  intro l
  induction l with
  | nil => intro seen h; simp [dedupFirstAux] at h
  | cons y ys ih =>
    intro seen h
    unfold dedupFirstAux at h
    by_cases hy : y ∈ seen
    · rw [if_pos hy] at h
      exact List.mem_cons_of_mem y (ih h)
    · rw [if_neg hy] at h
      rcases List.mem_cons.mp h with h | h
      · rw [h]
        exact List.mem_cons_self _ _
      · exact List.mem_cons_of_mem y (ih h)

/-- A text without line feeds splits into a single line. -/
theorem splitCRLF_no_newline : ∀ l : List Char, '\n' ∉ l → splitCRLF l = [l] := by
  intro l
  induction l with
  | nil => intro _; rfl
  | cons c rest ih =>
    intro h
    have hc : ¬ c = '\n' := fun hh => h (by rw [hh]; exact List.mem_cons_self _ _)
    have hrest : '\n' ∉ rest := fun hh => h (List.mem_cons_of_mem c hh)
    by_cases hr : c = '\r'
    · subst hr
      cases rest with
      | nil => rfl
      | cons c2 rest2 =>
        have hc2 : ¬ c2 = '\n' := fun hh =>
          hrest (by rw [← hh]; exact List.mem_cons_self _ _)
        rw [splitCRLF_r_cons c2 rest2 hc2, ih hrest]
        rfl
    · rw [splitCRLF_cons_ne c rest hc hr, ih hrest]
      rfl

/-- A trimmed, whitespace-collapsed, newline-free list of length at least
two is a fixed point of the de-duplication pipeline. -/
theorem codeDedup_fix_aux (out : List Char)
    (hnl : '\n' ∉ out) (hidem : jsTrim out = out) (hsq : squashWS out = out)
    (hlen : 2 ≤ out.length) :
    codeDedupChars out = out := by
  simp only [codeDedupChars]
  rw [splitCRLF_no_newline out hnl, List.map_cons, List.map_nil, hidem]
  rw [List.filter_cons_of_pos (by simp; exact hlen), List.filter_nil]
  rw [show dedupFirst [out] = [out] from by simp [dedupFirst, dedupFirstAux]]
  rw [show joinSep '\n' [out] = out from rfl]
  rw [hsq, hidem]

/-- The de-duplication pipeline is idempotent at character level. -/
theorem codeDedup_idem (cs : List Char) :
    codeDedupChars (codeDedupChars cs) = codeDedupChars cs := by
  cases hu : dedupFirst (((splitCRLF cs).map jsTrim).filter (fun l => 1 < l.length)) with
  | nil =>
    have h1 : codeDedupChars cs = [] := by
      simp only [codeDedupChars]
      rw [hu]
      rfl
    rw [h1]
    rfl
  | cons u us =>
    have hout : codeDedupChars cs
        = jsTrim (squashWS (joinSep '\n' (u :: us))) := by
      simp only [codeDedupChars]
      rw [hu]
    apply codeDedup_fix_aux
    · rw [hout]
      exact fun h => no_nl_squash _ (mem_jsTrim h)
    · rw [hout]
      exact jsTrim_idem _
    · rw [hout]
      show squashWS (trimL (trimR (squashWS (joinSep '\n' (u :: us)))))
        = trimL (trimR (squashWS (joinSep '\n' (u :: us))))
      rw [squash_trimL, squash_trimR, squash_idem]
    · rw [hout]
      have hmem : u ∈ ((splitCRLF cs).map jsTrim).filter (fun l => 1 < l.length) := by
        have hm : u ∈ dedupFirst
            (((splitCRLF cs).map jsTrim).filter (fun l => 1 < l.length)) := by
          rw [hu]
          exact List.mem_cons_self _ _
        exact dedupFirst_subset hm
      obtain ⟨hmem2, hulen⟩ := List.mem_filter.mp hmem
      obtain ⟨v, hv, hveq⟩ := List.mem_map.mp hmem2
      have hcu : 2 ≤ cntNW u := by
        apply cnt_ge_two u (by simpa using hulen)
        · intro x hx
          rw [← hveq] at hx
          exact jsTrim_head_not_ws v x hx
        · intro x hx
          rw [← hveq] at hx
          exact jsTrim_last_not_ws v x hx
      have hj : cntNW u ≤ cntNW (joinSep '\n' (u :: us)) :=
        cnt_joinSep_mem (List.mem_cons_self u us)
      have h1 : cntNW (jsTrim (squashWS (joinSep '\n' (u :: us))))
          = cntNW (joinSep '\n' (u :: us)) := by
        rw [cnt_jsTrim, cnt_squash]
      have h2 := cntNW_le_length (jsTrim (squashWS (joinSep '\n' (u :: us))))
      omega

/-- Claim C3: the de-duplication transformation underlying
getDeDupedFullText (split on newlines, trim, drop lines of length at most
one, de-duplicate keeping first occurrences, rejoin, normalize whitespace)
is idempotent on every input text. -/
theorem c3_dedup_idempotent : ∀ s : String, dedupeText (dedupeText s) = dedupeText s := by
  intro s
  unfold dedupeText
  rw [show (String.mk (codeDedupChars s.data)).data = codeDedupChars s.data from rfl]
  rw [codeDedup_idem]
